import Mathlib

/-!
Verification of the FFPKG trailer construction tool (`ffpkg_create.py`).

The script appends a custom trailer to an image file.  Per entry it writes
`file_data ++ LE64(file_size) ++ path_bytes ++ NUL ++ LE16(path_len)`, then a
footer `LE32(file_count) ++ TITLE_ID ++ LE16(version) ++ "ffpkg"`.

Bytes are modelled as `Nat` (values < 256 where produced), Python strings as
lists of Unicode code points, and the file system as an oracle from paths to
optional contents.  Fallible operations (ASCII encoding, `struct.pack` range
checks, `open`) live in `Except Err`.
-/

abbrev Byte := Nat

/-- Construction-time failures of the script, one constructor per distinct
Python exception site. -/
inductive Err where
  | invalidTitleId
  | nonAsciiPath
  | nonAsciiTitle
  | embeddedNul
  | ioError
  | structError
deriving DecidableEq, Repr

/-- `w` bytes of `n` in little-endian order, as written by `struct.pack`
(assuming `n < 256 ^ w`; `packLE` enforces the bound). -/
def le : Nat → Nat → List Byte
  | 0, _ => []
  | w + 1, n => n % 256 :: le w (n / 256)

/-- Value of a little-endian byte sequence. -/
def leVal : List Byte → Nat
  | [] => 0
  | b :: bs => b + 256 * leVal bs

/-- `struct.pack` for an unsigned `w`-byte little-endian field: Python raises
`struct.error` when the value is out of range, modelled as `none`. -/
def packLE (w n : Nat) : Option (List Byte) :=
  if n < 256 ^ w then some (le w n) else none

/-- Python's `str.encode("ascii")`: succeeds iff every code point is below
128, in which case the byte values equal the code points. -/
def encodeAscii (s : List Nat) : Option (List Byte) :=
  if ∀ c ∈ s, c < 128 then some s else none

/-- Format version constant (`VERSION = 1`). -/
def VERSION : Nat := 1

/-- The 5-byte magic `b"ffpkg"`. -/
def magic : List Byte := [102, 102, 112, 107, 103]

/-- Body of the per-file loop (lines 37-51), given the file's content: encode
the path as ASCII (line 38; `UnicodeEncodeError` on a non-ASCII character),
open the file (line 41; Python's `open` raises `ValueError` on an embedded NUL
byte in the path), then emit
`file_data ++ LE64(file_size) ++ path_bytes ++ NUL ++ LE16(path_len)` where
`path_len = len(path_bytes) + 1` counts the terminating NUL. -/
def encodeEntryStep (path : List Nat) (content : List Byte) : Except Err (List Byte) :=
  match encodeAscii path with
  | none => .error .nonAsciiPath
  | some path_bytes =>
    if 0 ∈ path then .error .embeddedNul
    else
      match packLE 8 content.length, packLE 2 (path_bytes.length + 1) with
      | some sizeB, some lenB => .ok (content ++ sizeB ++ path_bytes ++ [0] ++ lenB)
      | _, _ => .error .structError

/-- The `sce_entries` accumulation over an ordered list of (path, content)
pairs: entries are concatenated in order; the first failing entry aborts the
whole construction. -/
def sceEntries : List (List Nat × List Byte) → Except Err (List Byte)
  | [] => .ok []
  | (p, c) :: rest =>
    match encodeEntryStep p c with
    | .error e => .error e
    | .ok e =>
      match sceEntries rest with
      | .error e2 => .error e2
      | .ok es => .ok (e ++ es)

/-- Trailer assembly (lines 55-63) over explicit (path, content) pairs:
`sce_entries ++ file_count_bytes ++ title ++ version ++ magic`, where the
title is ASCII-encoded (line 57) and `file_count` is packed as LE32
(line 58). -/
def trailer (titleId : List Nat) (files : List (List Nat × List Byte)) : Except Err (List Byte) :=
  match sceEntries files with
  | .error e => .error e
  | .ok entries =>
    match encodeAscii titleId with
    | none => .error .nonAsciiTitle
    | some title =>
      match packLE 4 files.length with
      | none => .error .structError
      | some file_count_bytes =>
        .ok (entries ++ file_count_bytes ++ title ++ le 2 VERSION ++ magic)

/-- Python string `<=`: lexicographic comparison of code point sequences,
with a proper prefix comparing below any extension. -/
def pathLe : List Nat → List Nat → Bool
  | [], _ => true
  | _ :: _, [] => false
  | a :: as, b :: bs => if a < b then true else if b < a then false else pathLe as bs

/-- `sce_sys_files.sort()` (line 32): sort the walked paths by Python string
order.  `list.sort` is a stable sort, and on a list of strings its result is
the unique `pathLe`-sorted permutation. -/
def sortPaths (paths : List (List Nat)) : List (List Nat) :=
  List.insertionSort (fun a b => pathLe a b = true) paths

/-- One iteration of the per-file loop against the file-system oracle:
ASCII-encode the path, then `open`/`read` (a NUL byte in the path raises
`ValueError`; a missing or unreadable file raises `OSError`), then encode the
entry. -/
def readEntry (fs : List Nat → Option (List Byte)) (p : List Nat) : Except Err (List Byte) :=
  if ¬ (∀ c ∈ p, c < 128) then .error .nonAsciiPath
  else if 0 ∈ p then .error .embeddedNul
  else
    match fs p with
    | none => .error .ioError
    | some c => encodeEntryStep p c

/-- The per-file loop over the sorted path list, reading contents from the
oracle. -/
def sceEntriesFS (fs : List Nat → Option (List Byte)) : List (List Nat) → Except Err (List Byte)
  | [] => .ok []
  | p :: rest =>
    match readEntry fs p with
    | .error e => .error e
    | .ok e =>
      match sceEntriesFS fs rest with
      | .error e2 => .error e2
      | .ok es => .ok (e ++ es)

/-- Trailer assembly on top of the file-system oracle, with `file_count` taken
from the path list (line 34). -/
def trailerFS (titleId : List Nat) (fs : List Nat → Option (List Byte))
    (paths : List (List Nat)) : Except Err (List Byte) :=
  match sceEntriesFS fs paths with
  | .error e => .error e
  | .ok entries =>
    match encodeAscii titleId with
    | none => .error .nonAsciiTitle
    | some title =>
      match packLE 4 paths.length with
      | none => .error .structError
      | some file_count_bytes =>
        .ok (entries ++ file_count_bytes ++ title ++ le 2 VERSION ++ magic)

/-- The whole script: validate the title-id length (line 22, before any file
is touched), sort the walked paths, build the trailer, then append it to the
image with `open(INPUT_FILE, "ab")` (lines 65-66; append mode creates the file
when it is missing, so a missing image behaves as an empty one).  The result
is the final content of the output file. -/
def ffpkgCreate (titleId : List Nat) (walkPaths : List (List Nat))
    (fs : List Nat → Option (List Byte)) (image : Option (List Byte)) : Except Err (List Byte) :=
  if titleId.length = 9 then
    match trailerFS titleId fs (sortPaths walkPaths) with
    | .error e => .error e
    | .ok t => .ok (image.getD [] ++ t)
  else .error .invalidTitleId

/-- Read `n` bytes from the front of a (reversed) stream; `none` when the
stream is too short (an out-of-file cursor). -/
def takeBytes (n : Nat) (r : List Byte) : Option (List Byte × List Byte) :=
  if n ≤ r.length then some (r.take n, r.drop n) else none

/-- Strip the single leading byte of a reversed path field when it is the NUL
terminator ("strip trailing NUL" seen from the end). -/
def stripLeadNul : List Byte → List Byte
  | 0 :: t => t
  | l => l

/-- Modelled from the spec: step 5 of the implied decoder of section 4.4,
which is specification-only and not present as running code.  Working on the
reversed byte stream (i.e. walking backward from the cursor), read each of the
`count` entries: 2 bytes of `path_len`, then `path_len` bytes of
NUL-terminated path (strip the trailing NUL), then 8 bytes of `file_size`,
then `file_size` bytes of `file_data`.  Entries are recovered last-first, so
each is pushed onto the accumulator. -/
def decodeEntriesRev : Nat → List Byte → List (List Byte × List Byte) →
    Option (List (List Byte × List Byte) × List Byte)
  | 0, r, acc => some (acc, r)
  | k + 1, r, acc =>
    match takeBytes 2 r with
    | none => none
    | some (lenB, r1) =>
      match takeBytes (leVal lenB.reverse) r1 with
      | none => none
      | some (pathRev, r2) =>
        match takeBytes 8 r2 with
        | none => none
        | some (sizeB, r3) =>
          match takeBytes (leVal sizeB.reverse) r3 with
          | none => none
          | some (dataRev, r4) =>
            decodeEntriesRev k r4 (((stripLeadNul pathRev).reverse, dataRev.reverse) :: acc)

/-- Modelled from the spec: the implied decoder of section 4.4, which is
specification-only and not present as running code.  Starting from
end-of-file: check the 5-byte magic, read `version` (LE16) and reject unknown
versions, read the 9-byte `title_id`, read `file_count` (LE32), then decode
that many entries walking backward; the remaining prefix is the original
image.  Any out-of-file read is a `FormatError`, modelled as `none`. -/
def decode (file : List Byte) :
    Option (List Byte × List (List Byte × List Byte) × List Byte × Nat) :=
  match takeBytes 5 file.reverse with
  | none => none
  | some (m, r1) =>
    if m = magic.reverse then
      match takeBytes 2 r1 with
      | none => none
      | some (vB, r2) =>
        if leVal vB.reverse = VERSION then
          match takeBytes 9 r2 with
          | none => none
          | some (tB, r3) =>
            match takeBytes 4 r3 with
            | none => none
            | some (cB, r4) =>
              match decodeEntriesRev (leVal cB.reverse) r4 [] with
              | none => none
              | some (entries, r5) => some (r5.reverse, entries, tB.reverse, leVal vB.reverse)
        else none
    else none

/-- The spec scenario's identifier `"PPSA10240"` as code points. -/
def tidPPSA : List Nat := [80, 80, 83, 65, 49, 48, 50, 52, 48]

/-- The spec scenario's single entry: path `"a.txt"`, content `b"hi"`. -/
def entryATxt : List Nat × List Byte := ([97, 46, 116, 120, 116], [104, 105])

theorem le_length (w n : Nat) : (le w n).length = w := by
  induction w generalizing n with
  | zero => rfl
  | succ k ih => simp [le, ih]

theorem leVal_le (w n : Nat) (h : n < 256 ^ w) : leVal (le w n) = n := by
  induction w generalizing n with
  | zero =>
    simp [le, leVal]
    omega
  | succ k ih =>
    have hd : n / 256 < 256 ^ k := by
      rw [Nat.div_lt_iff_lt_mul (by norm_num)]
      calc n < 256 ^ (k + 1) := h
        _ = 256 ^ k * 256 := by ring
    simp [le, leVal, ih _ hd]
    omega

theorem takeBytes_exact (n : Nat) (a b : List Byte) (h : a.length = n) :
    takeBytes n (a ++ b) = some (a, b) := by
  subst h
  simp [takeBytes, List.take_left, List.drop_left]

theorem encodeEntryStep_ok_iff (p : List Nat) (c e : List Byte) :
    encodeEntryStep p c = .ok e ↔
      (∀ x ∈ p, x < 128) ∧ 0 ∉ p ∧ c.length < 256 ^ 8 ∧ p.length + 1 < 256 ^ 2 ∧
        e = c ++ le 8 c.length ++ p ++ [0] ++ le 2 (p.length + 1) := by
  unfold encodeEntryStep encodeAscii packLE
  by_cases h1 : ∀ x ∈ p, x < 128
  · rw [if_pos h1]
    by_cases h2 : (0 : Nat) ∈ p
    · simp [h1, h2]
    · by_cases h3 : c.length < 18446744073709551616
      · by_cases h4 : p.length + 1 < 65536
        · simp [h1, h2, h3, h4, eq_comm]
          exact fun _ => h1
        · simp [h1, h2, h3, h4]
      · simp [h1, h2, h3]
  · rw [if_neg h1]
    simp [h1]

theorem decodeEntriesRev_cons (p : List Nat) (c e : List Byte)
    (h : encodeEntryStep p c = .ok e) (k : Nat) (rest : List Byte)
    (acc : List (List Byte × List Byte)) :
    decodeEntriesRev (k + 1) (e.reverse ++ rest) acc = decodeEntriesRev k rest ((p, c) :: acc) := by
  obtain ⟨-, -, hc, hp, he⟩ := (encodeEntryStep_ok_iff p c e).1 h
  subst he
  have hs : (c ++ le 8 c.length ++ p ++ [0] ++ le 2 (p.length + 1)).reverse ++ rest =
      (le 2 (p.length + 1)).reverse ++
        ((0 :: p.reverse) ++ ((le 8 c.length).reverse ++ (c.reverse ++ rest))) := by
    simp
  rw [hs, decodeEntriesRev, takeBytes_exact 2 _ _ (by simp [le_length])]
  simp only [List.reverse_reverse]
  rw [leVal_le 2 _ hp, takeBytes_exact (p.length + 1) (0 :: p.reverse) _ (by simp)]
  simp only [List.reverse_reverse]
  rw [takeBytes_exact 8 _ _ (by simp [le_length])]
  simp only [List.reverse_reverse]
  rw [leVal_le 8 _ hc, takeBytes_exact c.length c.reverse _ (by simp)]
  simp only [stripLeadNul, List.reverse_reverse]

theorem sceEntries_cons_ok (p : List Nat) (c : List Byte) (fs : List (List Nat × List Byte))
    (E : List Byte) (h : sceEntries ((p, c) :: fs) = .ok E) :
    ∃ e E', encodeEntryStep p c = .ok e ∧ sceEntries fs = .ok E' ∧ E = e ++ E' := by
  unfold sceEntries at h
  cases he : encodeEntryStep p c with
  | error err => simp only [he] at h; exact Except.noConfusion h
  | ok e =>
    simp only [he] at h
    cases hr : sceEntries fs with
    | error err => simp only [hr] at h; exact Except.noConfusion h
    | ok E' =>
      simp only [hr, Except.ok.injEq] at h
      exact ⟨e, E', rfl, rfl, h.symm⟩

theorem decodeEntriesRev_sceEntries (files : List (List Nat × List Byte)) (E : List Byte)
    (h : sceEntries files = .ok E) (k : Nat) (rest : List Byte)
    (acc : List (List Byte × List Byte)) :
    decodeEntriesRev (files.length + k) (E.reverse ++ rest) acc =
      decodeEntriesRev k rest (files ++ acc) := by
  induction files generalizing E k rest acc with
  | nil =>
    have hE : E = [] := by
      simpa [sceEntries] using h.symm
    subst hE
    simp
  | cons f fs ih =>
    obtain ⟨p, c⟩ := f
    obtain ⟨e, E', he, hE', rfl⟩ := sceEntries_cons_ok p c fs E h
    have hstream : (e ++ E').reverse ++ rest = E'.reverse ++ (e.reverse ++ rest) := by simp
    have harith : ((p, c) :: fs).length + k = fs.length + (k + 1) := by
      simp [List.length_cons]
      omega
    rw [hstream, harith, ih E' hE' (k + 1) (e.reverse ++ rest) acc,
      decodeEntriesRev_cons p c e he k rest (fs ++ acc)]
    rfl

theorem trailer_ok_elim (tid : List Nat) (files : List (List Nat × List Byte)) (t : List Byte)
    (h : trailer tid files = .ok t) :
    ∃ E, sceEntries files = .ok E ∧ (∀ x ∈ tid, x < 128) ∧ files.length < 256 ^ 4 ∧
      t = E ++ le 4 files.length ++ tid ++ le 2 VERSION ++ magic := by
  unfold trailer encodeAscii packLE at h
  cases hE : sceEntries files with
  | error e => simp only [hE] at h; exact Except.noConfusion h
  | ok E =>
    simp only [hE] at h
    by_cases ha : ∀ x ∈ tid, x < 128
    · rw [if_pos ha] at h
      by_cases hcnt : files.length < 256 ^ 4
      · rw [if_pos hcnt] at h
        simp only [Except.ok.injEq] at h
        exact ⟨E, rfl, ha, hcnt, h.symm⟩
      · rw [if_neg hcnt] at h
        simp at h
    · rw [if_neg ha] at h
      simp at h

/-- Claim C1: round-trip.  For every ordered entry list with ASCII non-empty
paths and every 9-character identifier, running the implied decoder of spec
section 4.4 on `image ++ trailer` recovers exactly the original image bytes,
the same entries in the same order, the identifier, and version 1 — including
zero-length contents and the empty entry set. -/
theorem trailer_roundTrip (tid : List Nat) (files : List (List Nat × List Byte))
    (image t : List Byte) (hlen : tid.length = 9)
    (hpaths : ∀ pc ∈ files, pc.1 ≠ [] ∧ ∀ x ∈ pc.1, x < 128)
    (ht : trailer tid files = .ok t) :
    decode (image ++ t) = some (image, files, tid, VERSION) := by
  obtain ⟨E, hE, ha, hcnt, rfl⟩ := trailer_ok_elim tid files t ht
  unfold decode
  have hstream : (image ++ (E ++ le 4 files.length ++ tid ++ le 2 VERSION ++ magic)).reverse =
      magic.reverse ++ ((le 2 VERSION).reverse ++ (tid.reverse ++
        ((le 4 files.length).reverse ++ (E.reverse ++ image.reverse)))) := by
    simp
  rw [hstream, takeBytes_exact 5 _ _ (by simp [magic])]
  simp only [List.reverse_reverse]
  rw [if_true, takeBytes_exact 2 _ _ (by simp [le_length])]
  simp only [List.reverse_reverse]
  rw [leVal_le 2 VERSION (by norm_num [VERSION]), if_pos rfl,
    takeBytes_exact 9 _ _ (by simp [hlen])]
  simp only [List.reverse_reverse]
  rw [takeBytes_exact 4 _ _ (by simp [le_length])]
  simp only [List.reverse_reverse]
  rw [leVal_le 4 _ hcnt]
  have hdec := decodeEntriesRev_sceEntries files E hE 0 image.reverse []
  rw [Nat.add_zero] at hdec
  rw [hdec]
  simp [decodeEntriesRev]

/-- Witness for C1 at concrete inputs: the spec scenario entry on a 2-byte
image, a zero-length content entry, and the empty entry set. -/
theorem trailer_roundTrip_witness :
    decode ([9, 9] ++ ([104, 105] ++ [2, 0, 0, 0, 0, 0, 0, 0] ++ [97, 46, 116, 120, 116, 0] ++
        [6, 0] ++ [1, 0, 0, 0] ++ tidPPSA ++ [1, 0] ++ magic)) =
      some ([9, 9], [([97, 46, 116, 120, 116], [104, 105])], tidPPSA, VERSION) ∧
    decode ([7] ++ ([0, 0, 0, 0, 0, 0, 0, 0] ++ [98, 0] ++ [2, 0] ++ [1, 0, 0, 0] ++ tidPPSA ++
        [1, 0] ++ magic)) =
      some ([7], [([98], [])], tidPPSA, VERSION) ∧
    decode ([] ++ ([0, 0, 0, 0] ++ tidPPSA ++ [1, 0] ++ magic)) =
      some ([], [], tidPPSA, VERSION) :=
  ⟨trailer_roundTrip tidPPSA [([97, 46, 116, 120, 116], [104, 105])] [9, 9] _
      (by decide) (by decide) (by rfl),
    trailer_roundTrip tidPPSA [([98], [])] [7] _ (by decide) (by decide) (by rfl),
    trailer_roundTrip tidPPSA [] [] _ (by decide) (by decide) (by rfl)⟩

/-- Claim C2: entry encoding.  For every (path, content) pair with a non-empty
ASCII path, the encoded entry record is exactly
`content ++ LE64(len content) ++ path_bytes ++ NUL ++ LE16(len path_bytes + 1)`,
with the `path_len` field always counting the terminating NUL (it equals the
length of the NUL-terminated path field). -/
theorem entry_encoding (p : List Nat) (c e : List Byte)
    (hascii : ∀ x ∈ p, x < 128) (hne : p ≠ [])
    (h : encodeEntryStep p c = .ok e) :
    e = c ++ le 8 c.length ++ p ++ [0] ++ le 2 (p.length + 1) ∧
      leVal (le 2 (p.length + 1)) = (p ++ [0]).length := by
  obtain ⟨-, -, -, hp, he⟩ := (encodeEntryStep_ok_iff p c e).1 h
  refine ⟨he, ?_⟩
  rw [leVal_le 2 _ hp]
  simp

/-- Witness for C2 at the scenario entry `("a.txt", b"hi")`. -/
theorem entry_encoding_witness :
    [104, 105, 2, 0, 0, 0, 0, 0, 0, 0, 97, 46, 116, 120, 116, 0, 6, 0] =
      [104, 105] ++ le 8 2 ++ [97, 46, 116, 120, 116] ++ [0] ++ le 2 6 ∧
    leVal (le 2 6) = [97, 46, 116, 120, 116, 0].length :=
  entry_encoding [97, 46, 116, 120, 116] [104, 105] _ (by decide) (by decide) (by rfl)

/-- Claim C3: trailer assembly.  The trailer is the entry encodings in order,
then `LE32(count)`, the 9 identifier bytes, `LE16(version)` and `"ffpkg"`;
with zero entries it is exactly the 20-byte footer with `file_count = 0`; and
on the spec scenario it is the exact byte string of spec section 8. -/
theorem trailer_assembly :
    (∀ tid files E, (∀ x ∈ tid, x < 128) → sceEntries files = .ok E →
        files.length < 256 ^ 4 →
        trailer tid files = .ok (E ++ le 4 files.length ++ tid ++ le 2 VERSION ++ magic)) ∧
    (∀ tid, (∀ x ∈ tid, x < 128) → tid.length = 9 →
        trailer tid [] = .ok (le 4 0 ++ tid ++ le 2 VERSION ++ magic) ∧
        (le 4 0 ++ tid ++ le 2 VERSION ++ magic).length = 20) ∧
    trailer tidPPSA [entryATxt] = .ok ([104, 105] ++ [2, 0, 0, 0, 0, 0, 0, 0] ++
      [97, 46, 116, 120, 116, 0] ++ [6, 0] ++ [1, 0, 0, 0] ++ tidPPSA ++ [1, 0] ++ magic) := by
  have main : ∀ tid files E, (∀ x ∈ tid, x < 128) → sceEntries files = .ok E →
      files.length < 256 ^ 4 →
      trailer tid files = .ok (E ++ le 4 files.length ++ tid ++ le 2 VERSION ++ magic) := by
    intro tid files E ha hE hcnt
    unfold trailer encodeAscii packLE
    rw [hE, if_pos ha, if_pos hcnt]
  refine ⟨main, fun tid ha hlen => ⟨?_, ?_⟩, by rfl⟩
  · have h0 := main tid [] [] ha (by rfl) (by norm_num)
    simpa using h0
  · simp [hlen, le_length, magic]

/-- Witness for C3: the zero-entry trailer for `"PPSA10240"` is exactly the
20-byte footer. -/
theorem trailer_assembly_witness :
    trailer tidPPSA [] = .ok (le 4 0 ++ tidPPSA ++ le 2 VERSION ++ magic) ∧
    (le 4 0 ++ tidPPSA ++ le 2 VERSION ++ magic).length = 20 :=
  trailer_assembly.2.1 tidPPSA (by decide) (by decide)

/-- Claim C4: non-destructive append.  A successful run writes exactly
`image ++ trailer`: the output length is the sum of the two, and the trailer
appended is the same whatever the image content is — no image byte is read or
altered. -/
theorem nondestructive_append (tid : List Nat) (paths : List (List Nat))
    (fs : List Nat → Option (List Byte)) (img out : List Byte)
    (h : ffpkgCreate tid paths fs (some img) = .ok out) :
    ∃ t, trailerFS tid fs (sortPaths paths) = .ok t ∧ out = img ++ t ∧
      out.length = img.length + t.length ∧
      ∀ img', ffpkgCreate tid paths fs (some img') = .ok (img' ++ t) := by
  unfold ffpkgCreate at h
  by_cases hlen : tid.length = 9
  · rw [if_pos hlen] at h
    cases htr : trailerFS tid fs (sortPaths paths) with
    | error e => rw [htr] at h; exact Except.noConfusion h
    | ok t =>
      rw [htr] at h
      simp only [Option.getD_some, Except.ok.injEq] at h
      subst h
      refine ⟨t, rfl, rfl, by simp, ?_⟩
      intro img'
      unfold ffpkgCreate
      rw [if_pos hlen, htr]
      rfl
  · rw [if_neg hlen] at h
    exact Except.noConfusion h

/-- Witness for C4: appending the empty-set trailer to the one-byte image
`[9]`. -/
theorem nondestructive_append_witness :
    ∃ t, trailerFS tidPPSA (fun _ => none) (sortPaths []) = .ok t ∧
      [9] ++ (le 4 0 ++ tidPPSA ++ le 2 VERSION ++ magic) = [9] ++ t ∧
      ([9] ++ (le 4 0 ++ tidPPSA ++ le 2 VERSION ++ magic)).length = [9].length + t.length ∧
      ∀ img', ffpkgCreate tidPPSA [] (fun _ => none) (some img') = .ok (img' ++ t) :=
  nondestructive_append tidPPSA [] (fun _ => none) [9]
    ([9] ++ (le 4 0 ++ tidPPSA ++ le 2 VERSION ++ magic)) (by rfl)

/-- Claim C6: identifier length validation.  Whenever the title id does not
have exactly 9 characters, the run fails with the validation error, whatever
the file system, walked paths or image state are — so it aborts before any
file is opened or written, and the identifier is never truncated or padded. -/
theorem titleId_length_check (tid : List Nat) (paths : List (List Nat))
    (fs : List Nat → Option (List Byte)) (img : Option (List Byte))
    (h : tid.length ≠ 9) :
    ffpkgCreate tid paths fs img = .error .invalidTitleId := by
  unfold ffpkgCreate
  rw [if_neg h]

/-- Witness for C6 at identifiers of length 8 and 10. -/
theorem titleId_length_check_witness :
    ffpkgCreate [80, 80, 83, 65, 49, 48, 50, 52] [] (fun _ => none) none =
      .error .invalidTitleId ∧
    ffpkgCreate [80, 80, 83, 65, 49, 48, 50, 52, 48, 48] [] (fun _ => none) (some [1]) =
      .error .invalidTitleId :=
  ⟨titleId_length_check _ _ _ _ (by decide), titleId_length_check _ _ _ _ (by decide)⟩

/-- Counterexample for C8: with a missing image file (`none`), append mode
creates the file and the run succeeds with the trailer alone — no `IoError`
is raised and the operation does not abort. -/
theorem missing_image_no_error :
    ffpkgCreate tidPPSA [] (fun _ => none) none =
      .ok (le 4 0 ++ tidPPSA ++ le 2 VERSION ++ magic) := by
  rfl

/-- Claim C8 (amended): when the image path does not exist, `open(.., "ab")`
creates it, so the run behaves exactly as with an empty image; on success the
output file is the trailer alone. -/
theorem missing_image_append_creates (tid : List Nat) (paths : List (List Nat))
    (fs : List Nat → Option (List Byte)) :
    ffpkgCreate tid paths fs none = ffpkgCreate tid paths fs (some []) ∧
    ∀ out, ffpkgCreate tid paths fs none = .ok out →
      trailerFS tid fs (sortPaths paths) = .ok out := by
  constructor
  · unfold ffpkgCreate
    by_cases hlen : tid.length = 9
    · rw [if_pos hlen, if_pos hlen]
      cases trailerFS tid fs (sortPaths paths) <;> rfl
    · rw [if_neg hlen, if_neg hlen]
  · intro out h
    unfold ffpkgCreate at h
    by_cases hlen : tid.length = 9
    · rw [if_pos hlen] at h
      cases htr : trailerFS tid fs (sortPaths paths) with
      | error e => rw [htr] at h; exact Except.noConfusion h
      | ok t =>
        rw [htr] at h
        simp only [Option.getD_none, List.nil_append, Except.ok.injEq] at h
        rw [← h]
    · rw [if_neg hlen] at h
      exact Except.noConfusion h

/-- Witness for C8 (amended) at the empty path set with a missing image. -/
theorem missing_image_append_creates_witness :
    ffpkgCreate tidPPSA [] (fun _ => none) none =
      ffpkgCreate tidPPSA [] (fun _ => none) (some []) ∧
    trailerFS tidPPSA (fun _ => none) (sortPaths []) =
      .ok (le 4 0 ++ tidPPSA ++ le 2 VERSION ++ magic) :=
  ⟨(missing_image_append_creates tidPPSA [] (fun _ => none)).1,
    (missing_image_append_creates tidPPSA [] (fun _ => none)).2 _ (by rfl)⟩

theorem pathLe_total (a b : List Nat) : pathLe a b = true ∨ pathLe b a = true := by
  induction a generalizing b with
  | nil => left; rfl
  | cons x xs ih =>
    cases b with
    | nil => right; rfl
    | cons y ys =>
      rcases Nat.lt_trichotomy x y with h | h | h
      · left; simp [pathLe, h]
      · subst h
        rcases ih ys with h' | h'
        · left; simp [pathLe, h']
        · right; simp [pathLe, h']
      · right; simp [pathLe, h]

theorem pathLe_trans (a b c : List Nat) (hab : pathLe a b = true)
    (hbc : pathLe b c = true) : pathLe a c = true := by
  induction a generalizing b c with
  | nil => rfl
  | cons x xs ih =>
    cases b with
    | nil => simp [pathLe] at hab
    | cons y ys =>
      cases c with
      | nil => simp [pathLe] at hbc
      | cons z zs =>
        simp only [pathLe] at hab hbc ⊢
        by_cases hxy : x < y
        · by_cases hyz : y < z
          · simp [Nat.lt_trans hxy hyz]
          · by_cases hzy : z < y
            · simp [hyz, hzy] at hbc
            · have hyz' : y = z := by omega
              subst hyz'
              simp [hxy]
        · by_cases hyx : y < x
          · simp [hxy, hyx] at hab
          · have hxy' : x = y := by omega
            subst hxy'
            simp only [Nat.lt_irrefl, if_false] at hab ⊢
            by_cases hxz : x < z
            · simp [hxz]
            · by_cases hzx : z < x
              · simp [hxz, hzx] at hbc
              · simp only [hxz, hzx, if_false] at hbc ⊢
                exact ih ys zs hab hbc

theorem pathLe_antisymm (a b : List Nat) (hab : pathLe a b = true)
    (hba : pathLe b a = true) : a = b := by
  induction a generalizing b with
  | nil =>
    cases b with
    | nil => rfl
    | cons y ys => simp [pathLe] at hba
  | cons x xs ih =>
    cases b with
    | nil => simp [pathLe] at hab
    | cons y ys =>
      by_cases hxy : x < y
      · simp [pathLe, hxy, Nat.lt_asymm hxy] at hba
      · by_cases hyx : y < x
        · simp [pathLe, hxy, hyx] at hab
        · have hxy' : x = y := by omega
          subst hxy'
          simp only [pathLe, Nat.lt_irrefl, if_false] at hab hba
          rw [ih ys hab hba]

instance instPathLeTotal : IsTotal (List Nat) (fun a b => pathLe a b = true) :=
  ⟨pathLe_total⟩

instance instPathLeTrans : IsTrans (List Nat) (fun a b => pathLe a b = true) :=
  ⟨pathLe_trans⟩

instance instPathLeAntisymm : IsAntisymm (List Nat) (fun a b => pathLe a b = true) :=
  ⟨pathLe_antisymm⟩

theorem sortPaths_eq_of_perm (p1 p2 : List (List Nat)) (h : p1.Perm p2) :
    sortPaths p1 = sortPaths p2 :=
  List.eq_of_perm_of_sorted
    ((List.perm_insertionSort _ p1).trans (h.trans (List.perm_insertionSort _ p2).symm))
    (List.sorted_insertionSort _ p1) (List.sorted_insertionSort _ p2)

/-- Claim C5: determinism.  Two runs over the same logical file set — the same
multiset of walked paths against the same file-system contents — produce the
same result byte for byte, whatever order the directory walk yields the
paths, because the paths are sorted before encoding. -/
theorem deterministic_construction (tid : List Nat) (p1 p2 : List (List Nat))
    (fs : List Nat → Option (List Byte)) (img : Option (List Byte))
    (h : p1.Perm p2) :
    ffpkgCreate tid p1 fs img = ffpkgCreate tid p2 fs img := by
  unfold ffpkgCreate
  rw [sortPaths_eq_of_perm p1 p2 h]

/-- Witness for C5: two walk orders of the same two files give identical
outputs. -/
theorem deterministic_construction_witness :
    ffpkgCreate tidPPSA [[98], [97]] (fun _ => some []) none =
      ffpkgCreate tidPPSA [[97], [98]] (fun _ => some []) none :=
  deterministic_construction tidPPSA [[98], [97]] [[97], [98]] (fun _ => some []) none
    (List.Perm.swap [97] [98] [])

theorem sceEntriesFS_error_of_mem (fs : List Nat → Option (List Byte)) (l : List (List Nat))
    (p : List Nat) (hp : p ∈ l) (e0 : Err) (he : readEntry fs p = .error e0) :
    ∃ e, sceEntriesFS fs l = .error e := by
  induction l with
  | nil => cases hp
  | cons q qs ih =>
    unfold sceEntriesFS
    cases hq : readEntry fs q with
    | error e1 => exact ⟨e1, rfl⟩
    | ok v =>
      have hpq : p ∈ qs := by
        rcases List.mem_cons.1 hp with h | h
        · subst h
          rw [he] at hq
          exact Except.noConfusion hq
        · exact h
      obtain ⟨e2, h2⟩ := ih hpq
      rw [h2]
      exact ⟨e2, rfl⟩

theorem ffpkgCreate_error_of_entry (tid : List Nat) (paths : List (List Nat))
    (fs : List Nat → Option (List Byte)) (img : Option (List Byte)) (p : List Nat)
    (hp : p ∈ paths) (e0 : Err) (he : readEntry fs p = .error e0) :
    ∃ e, ffpkgCreate tid paths fs img = .error e := by
  by_cases hlen : tid.length = 9
  · have hmem : p ∈ sortPaths paths := (List.perm_insertionSort _ paths).mem_iff.2 hp
    obtain ⟨e1, h1⟩ := sceEntriesFS_error_of_mem fs (sortPaths paths) p hmem e0 he
    refine ⟨e1, ?_⟩
    unfold ffpkgCreate trailerFS
    rw [if_pos hlen, h1]
  · refine ⟨.invalidTitleId, ?_⟩
    unfold ffpkgCreate
    rw [if_neg hlen]

/-- Claim C7: non-ASCII path rejection.  Encoding an entry whose path has a
code point at or above 128 fails with the non-ASCII-path error (no silent
replacement or UTF-8 fallback), and a construction run whose walked set holds
such a path aborts with an error, appending nothing to the image. -/
theorem nonAscii_path_rejected :
    (∀ p c, ¬ (∀ x ∈ p, x < 128) → encodeEntryStep p c = .error .nonAsciiPath) ∧
    (∀ tid paths fs img p, p ∈ paths → ¬ (∀ x ∈ p, x < 128) →
      ∃ e, ffpkgCreate tid paths fs img = .error e) := by
  have henc : ∀ (p : List Nat) (c : List Byte), ¬ (∀ x ∈ p, x < 128) →
      encodeEntryStep p c = .error .nonAsciiPath := by
    intro p c hna
    unfold encodeEntryStep encodeAscii
    rw [if_neg hna]
  refine ⟨henc, ?_⟩
  intro tid paths fs img p hp hna
  have hre : readEntry fs p = .error .nonAsciiPath := by
    unfold readEntry
    rw [if_pos hna]
  exact ffpkgCreate_error_of_entry tid paths fs img p hp _ hre

/-- Witness for C7 at the one-code-point path `[200]`. -/
theorem nonAscii_path_rejected_witness :
    encodeEntryStep [200] [1] = .error .nonAsciiPath ∧
    ∃ e, ffpkgCreate tidPPSA [[200]] (fun _ => some []) (some [5]) = .error e :=
  ⟨nonAscii_path_rejected.1 [200] [1] (by decide),
    nonAscii_path_rejected.2 tidPPSA [[200]] (fun _ => some []) (some [5]) [200]
      (by decide) (by decide)⟩

/-- Claim C9: embedded NUL rejection.  A path containing a NUL byte makes the
per-entry encoding step fail with an error (it is never emitted or silently
transformed), and a construction run whose walked set holds such a path aborts
with an error. -/
theorem embedded_nul_rejected :
    (∀ p c, 0 ∈ p → ∃ e, encodeEntryStep p c = .error e) ∧
    (∀ tid paths fs img p, p ∈ paths → 0 ∈ p →
      ∃ e, ffpkgCreate tid paths fs img = .error e) := by
  have hstep : ∀ (p : List Nat) (c : List Byte), 0 ∈ p →
      ∃ e, encodeEntryStep p c = .error e := by
    intro p c h0
    unfold encodeEntryStep encodeAscii
    by_cases ha : ∀ x ∈ p, x < 128
    · refine ⟨.embeddedNul, ?_⟩
      rw [if_pos ha]
      simp [h0]
    · refine ⟨.nonAsciiPath, ?_⟩
      rw [if_neg ha]
  refine ⟨hstep, ?_⟩
  intro tid paths fs img p hp h0
  by_cases ha : ∀ x ∈ p, x < 128
  · have hre : readEntry fs p = .error .embeddedNul := by
      unfold readEntry
      rw [if_neg (not_not_intro ha), if_pos h0]
    exact ffpkgCreate_error_of_entry tid paths fs img p hp _ hre
  · have hre : readEntry fs p = .error .nonAsciiPath := by
      unfold readEntry
      rw [if_pos ha]
    exact ffpkgCreate_error_of_entry tid paths fs img p hp _ hre

/-- Witness for C9 at the path `[97, 0, 98]` (`"a\x00b"`). -/
theorem embedded_nul_rejected_witness :
    (∃ e, encodeEntryStep [97, 0, 98] [1] = .error e) ∧
    ∃ e, ffpkgCreate tidPPSA [[97, 0, 98]] (fun _ => some []) (some [5]) = .error e :=
  ⟨embedded_nul_rejected.1 [97, 0, 98] [1] (by decide),
    embedded_nul_rejected.2 tidPPSA [[97, 0, 98]] (fun _ => some []) (some [5]) [97, 0, 98]
      (by decide) (by decide)⟩

/-- Claim C10: `path_len` never wraps.  When the NUL-inclusive path length
exceeds 65535, `struct.pack("<H", ...)` raises instead of storing it modulo
2^16; consequently every successfully encoded entry has a `path_len` equal to
`len(path_bytes) + 1` and representable in 16 bits. -/
theorem pathLen_no_wrap :
    (∀ p c, (∀ x ∈ p, x < 128) → 0 ∉ p → 65535 < p.length + 1 →
      encodeEntryStep p c = .error .structError) ∧
    (∀ p c e, encodeEntryStep p c = .ok e → p.length + 1 ≤ 65535 ∧
      e = c ++ le 8 c.length ++ p ++ [0] ++ le 2 (p.length + 1)) := by
  constructor
  · intro p c ha h0 hbig
    have hno : ¬ p.length + 1 < 65536 := by omega
    unfold encodeEntryStep encodeAscii packLE
    rw [if_pos ha]
    by_cases hc : c.length < 18446744073709551616
    · simp [h0, hno, hc]
    · simp [h0, hno, hc]
  · intro p c e h
    obtain ⟨-, -, -, hp, he⟩ := (encodeEntryStep_ok_iff p c e).1 h
    have h2 : (256 : Nat) ^ 2 = 65536 := by norm_num
    exact ⟨by omega, he⟩

/-- Witness for C10: a 65535-character path is rejected; the entry
`("a", [1])` encodes with `path_len = 2`. -/
theorem pathLen_no_wrap_witness :
    encodeEntryStep (List.replicate 65535 97) [] = .error .structError ∧
    ([97].length + 1 ≤ 65535 ∧
      [1, 1, 0, 0, 0, 0, 0, 0, 0, 97, 0, 2, 0] =
        [1] ++ le 8 [1].length ++ [97] ++ [0] ++ le 2 ([97].length + 1)) :=
  ⟨pathLen_no_wrap.1 (List.replicate 65535 97) []
      (by intro x hx; rw [List.eq_of_mem_replicate hx]; norm_num)
      (by intro h; exact absurd (List.eq_of_mem_replicate h) (by norm_num))
      (by rw [List.length_replicate]; omega),
    pathLen_no_wrap.2 [97] [1] _ (by rfl)⟩
